import Mathlib

/-!
Verification of the `bib_sort` bibliography sorter.

The development shallowly embeds the program's two source files
(`src/main.rs` and `src/sort_by_author.rs`) over `List Char` as the text
type.  Machine strings are UTF-8 Rust `String`s; comparing them with Rust's
derived `Ord` is byte-lexicographic, which on valid UTF-8 coincides with
code-point-lexicographic order, so `List Char` with code-point order is a
faithful model.  Regex searches (`@.*\{`, `[^,\s]+`, `(?i)\bdoi\s*=\s*`,
`(?i)\bauthor\s*=\s*`, `(?i)\band\b`, `10\.[\)\(\.\w/\-:]+`) are modelled
as explicit leftmost-first scanners; the character classes `\s` and `\w`
are modelled by their ASCII parts, which is what bibliography files use.
Rust panics and `expect` failures are modelled as `Except.error`.
-/

namespace BibSort

/-- ASCII model of Rust whitespace (`char::is_whitespace` for `trim_start`
and `trim`, and the regex class `\s`). -/
def isWs (c : Char) : Bool :=
  c = ' ' || c = '\t' || c = '\n' || c = '\r' || c = '\x0b' || c = '\x0c'

/-- ASCII model of the regex word class `\w`. -/
def isWordChar (c : Char) : Bool :=
  c.isAlphanum || c = '_'

/-- Model of `str::trim_start`. -/
def trimStart (s : List Char) : List Char := s.dropWhile isWs

/-- Model of `str::trim` (strip whitespace from both ends). -/
def trimChars (s : List Char) : List Char :=
  ((s.dropWhile isWs).reverse.dropWhile isWs).reverse

/-- Byte/code-point lexicographic order on text, Rust's derived `Ord` for
`String` (`true` when `a ≤ b`). -/
def lexLe : List Char → List Char → Bool
  | [], _ => true
  | _ :: _, [] => false
  | a :: as, b :: bs => if a = b then lexLe as bs else decide (a < b)

/-- Model of `str::to_lowercase` as used on citation keys and sort keys
(per-character lowering; the inputs are ASCII). -/
def case_fn (case_sensitive : Bool) (s : List Char) : List Char :=
  if case_sensitive then s else s.map Char.toLower

/-- The command-line options of `Opts` in `main.rs` that influence the
core behaviour (paths are handled by external collaborators).  All the
flags default to `false`, as clap `bool` flags do. -/
structure Opts where
  case_sensitive : Bool := false
  no_duplicate_detection : Bool := false
  allow_empty_keys : Bool := false
  allow_doi_duplicates : Bool := false
  allow_empty_doi : Bool := false
  sort_by_first_author_field : Bool := false
  sort_by_first_author_first_name : Bool := false
deriving DecidableEq, Repr

/-- `BibEntry` of `main.rs`: the parsed key and the raw entry text. -/
structure BibEntry where
  id : List Char
  content : List Char
deriving DecidableEq, Repr

/-- `BracketCounter` of `main.rs` (fields `open` and `close`). -/
structure BracketCounter where
  openC : Nat
  closeC : Nat
deriving DecidableEq, Repr

/-- `BracketCounter::equal_brackets`. -/
def BracketCounter.equal_brackets (c : BracketCounter) : Bool :=
  decide (c.openC = c.closeC)

/-- `BracketCounter::count_brackets_return_content`.  Scans the characters
of `s` left to right, pushing each scanned character onto the returned
content.  On `{` the open counter is incremented; on `}` the close counter
is incremented and then, if the counters are equal, the function returns at
once with the scanned prefix (ending in that `}`) and the unscanned suffix
(the Rust code stores a non-empty suffix into the line iterator's leftover
slot; here it is returned as the third component, `none` when empty); if
instead close exceeds open, the Rust code panics, modelled as an error. -/
def count_brackets :
    BracketCounter → List Char → Except String (List Char × BracketCounter × Option (List Char))
  | c, [] => .ok ([], c, none)
  | c, ch :: rest =>
    if ch = '{' then
      match count_brackets ⟨c.openC + 1, c.closeC⟩ rest with
      | .error e => .error e
      | .ok (content, c2, lo) => .ok (ch :: content, c2, lo)
    else if ch = '}' then
      let c1 : BracketCounter := ⟨c.openC, c.closeC + 1⟩
      if c1.closeC = c1.openC then
        .ok ([ch], c1, if rest.isEmpty then none else some rest)
      else if c1.openC < c1.closeC then
        .error "bracket was closed before it was opened"
      else
        match count_brackets c1 rest with
        | .error e => .error e
        | .ok (content, c2, lo) => .ok (ch :: content, c2, lo)
    else
      match count_brackets c rest with
      | .error e => .error e
      | .ok (content, c2, lo) => .ok (ch :: content, c2, lo)

/-- `LineIterHelper`: the underlying line source plus the at-most-one
buffered leftover fragment. -/
structure LineIterHelper where
  leftover : Option (List Char)
  lines : List (List Char)
deriving DecidableEq, Repr

/-- `LineIterHelper::next` (`Iterator::next`): take the leftover if there
is one, otherwise pull the next line from the source.  Returns the yielded
item and the successor state. -/
def LineIterHelper.next (h : LineIterHelper) : Option (List Char) × LineIterHelper :=
  match h.leftover with
  | some l => (some l, ⟨none, h.lines⟩)
  | none =>
    match h.lines with
    | [] => (none, h)
    | l :: rest => (some l, ⟨none, rest⟩)

/-- Index of the first occurrence of `c`. -/
def firstIdxOf (c : Char) : List Char → Option Nat
  | [] => none
  | a :: rest => if a = c then some 0 else (firstIdxOf c rest).map (· + 1)

/-- Index of the last occurrence of `c`. -/
def lastIdxOf (c : Char) : List Char → Option Nat
  | [] => none
  | a :: rest =>
    match lastIdxOf c rest with
    | some i => some (i + 1)
    | none => if a = c then some 0 else none

/-- Model of `Regex::new(r"@.*\{").find(s)` under the regex crate's
leftmost-first semantics, returning `m.end()`.  A line contains no newline,
so `.` matches every character of it: the match starts at the first `@`
that has some `{` after it, and the greedy `.*` extends the match to the
last `{` of the line. -/
def entry_start_match_end (s : List Char) : Option Nat :=
  match firstIdxOf '@' s, lastIdxOf '{' s with
  | some i, some j => if i < j then some (j + 1) else none
  | _, _ => none

/-- The character class `[^,\s]` of the key regex. -/
def idOk (c : Char) : Bool := !(c = ',') && !(isWs c)

/-- Model of `Regex::new(r"[^,\s]+").find(s)`: the first maximal run of
non-comma, non-whitespace characters. -/
def findIdRun : List Char → Option (List Char)
  | [] => none
  | c :: rest => if idOk c then some (c :: rest.takeWhile idOk) else findIdRun rest

/-- The key extraction of `main` (lines 156-176 of `main.rs`): locate the
entry marker with `@.*\{`, then search the remainder of the line for the
key run; a missing run is fatal unless empty keys are allowed, and the key
is case-folded unless case-sensitive mode is active. -/
def extract_id (o : Opts) (t : List Char) : Except String (List Char) :=
  match entry_start_match_end t with
  | none => .error "line starts with at-sign but cannot parse, missing opening brace"
  | some e =>
    match findIdRun (t.drop e) with
    | none => if o.allow_empty_keys then .ok [] else .error "cannot find key in line"
    | some m => .ok (case_fn o.case_sensitive m)

/-- The inner loop of `main` (lines 185-196): keep pulling lines and
driving the bracket counter until the brackets balance, joining the pieces
with a newline.  Fuel counts loop iterations; each iteration pulls one
line, so `h.lines.length + 2` is always enough. -/
def entryLoop (o : Opts) :
    Nat → BracketCounter → LineIterHelper → List Char →
    Except String (List Char × LineIterHelper)
  | 0, _, _, _ => .error "out of fuel"
  | fuel + 1, counter, h, content =>
    if counter.equal_brackets then .ok (content, h)
    else
      match h.next with
      | (none, _) => .error "unexpected end of file, forgot to close a bracket"
      | (some line, h1) =>
        match count_brackets counter line with
        | .error e => .error e
        | .ok (piece, counter2, lo) =>
          entryLoop o fuel counter2 ⟨lo, h1.lines⟩ (content ++ '\n' :: piece)

/-- The outer loop of `main` (lines 147-203): skip blank lines, require `@`
at the start of an entry, extract the key, then accumulate the raw entry
text until the brackets balance.  Fuel counts outer iterations; each
iteration consumes one yielded item (a source line or a pushed-back
fragment, and each fragment's creation consumed at least one character),
so `parse_entries` below always supplies enough. -/
def parseLoop (o : Opts) :
    Nat → LineIterHelper → List BibEntry → Except String (List BibEntry)
  | 0, _, _ => .error "out of fuel"
  | fuel + 1, h, acc =>
    match h.next with
    | (none, _) => .ok acc.reverse
    | (some line, h1) =>
      let t := trimStart line
      if t.isEmpty then parseLoop o fuel h1 acc
      else if t.head? ≠ some '@' then
        .error "encountered line outside bib items that does not start a new bib item"
      else
        match extract_id o t with
        | .error e => .error e
        | .ok id =>
          match count_brackets ⟨0, 0⟩ t with
          | .error e => .error e
          | .ok (piece, counter, lo) =>
            match entryLoop o (h1.lines.length + 2) counter ⟨lo, h1.lines⟩ piece with
            | .error e => .error e
            | .ok (content, h2) => parseLoop o fuel h2 (⟨id, content⟩ :: acc)

/-- The entry segmentation phase of `main`: parse all lines into entries. -/
def parse_entries (o : Opts) (lines : List (List Char)) : Except String (List BibEntry) :=
  parseLoop o ((lines.map (fun l => l.length + 1)).sum + 2) ⟨none, lines⟩ []

/-- Case-insensitive prefix test: strip `word` (given in lowercase) from the
front of `s`, comparing lowered characters, and return the rest. -/
def stripPrefixCI : List Char → List Char → Option (List Char)
  | [], s => some s
  | _ :: _, [] => none
  | w :: ws, c :: cs => if c.toLower = w then stripPrefixCI ws cs else none

/-- Try to match `<word>\s*=\s*` at the front of `s` (case-insensitive);
on success return the number of characters consumed.  The greedy `\s*`
runs are maximal whitespace runs, and since `=` is not whitespace the
match length is uniquely determined. -/
def matchAssignAt (word : List Char) (s : List Char) : Option Nat :=
  match stripPrefixCI word s with
  | none => none
  | some rest =>
    let n1 := (rest.takeWhile isWs).length
    match rest.drop n1 with
    | '=' :: rest2 => some (word.length + n1 + 1 + (rest2.takeWhile isWs).length)
    | _ => none

/-- Leftmost scan for `findAssignEnd`: `prevOk` records whether the
previous character was a non-word character (the `\b` condition). -/
def findAssignAux (word : List Char) : Bool → List Char → Nat → Option Nat
  | _, [], _ => none
  | prevOk, c :: rest, pos =>
    match (if prevOk then matchAssignAt word (c :: rest) else none) with
    | some len => some (pos + len)
    | none => findAssignAux word (!isWordChar c) rest (pos + 1)

/-- Model of `Regex::new(r"(?i)\b<word>\s*=\s*").find(s).map(m.end())`:
the end offset of the leftmost field-assignment match. -/
def findAssignEnd (word : List Char) (s : List Char) : Option Nat :=
  findAssignAux word true s 0

/-- Whether `<word>\b` matches at the front of `s` (case-insensitive). -/
def matchesWordAt (word : List Char) (s : List Char) : Bool :=
  match stripPrefixCI word s with
  | none => false
  | some rest => rest.head?.all fun c => !isWordChar c

/-- Leftmost scan for `findWordStart`. -/
def findWordAux (word : List Char) : Bool → List Char → Nat → Option Nat
  | _, [], _ => none
  | prevOk, c :: rest, pos =>
    if prevOk && matchesWordAt word (c :: rest) then some pos
    else findWordAux word (!isWordChar c) rest (pos + 1)

/-- Model of `Regex::new(r"(?i)\b<word>\b").find(s).map(m.start())`:
the start offset of the leftmost whole-word match. -/
def findWordStart (word : List Char) (s : List Char) : Option Nat :=
  findWordAux word true s 0

/-- The word of the `AUTHOR_POS_REGEX` pattern. -/
def authorWord : List Char := ['a', 'u', 't', 'h', 'o', 'r']

/-- The word of the `AND` separator pattern. -/
def andWord : List Char := ['a', 'n', 'd']

/-- The word of the `doi_position_regex` pattern. -/
def doiWord : List Char := ['d', 'o', 'i']

/-- `Mode` of `sort_by_author.rs`. -/
inductive Mode
  | NotEscaped
  | Escaped
deriving DecidableEq, Repr

/-- The loop of `clean_string`, carrying the escape mode.  Arm order as in
the source: an escaped character is always copied; an unescaped quote or
brace is dropped; a backslash is copied and escapes the next character;
everything else is copied. -/
def clean_string_loop : Mode → List Char → List Char
  | .Escaped, c :: rest => c :: clean_string_loop .NotEscaped rest
  | .NotEscaped, c :: rest =>
    if c = '\'' || c = '"' || c = '{' || c = '}' then clean_string_loop .NotEscaped rest
    else if c = '\\' then '\\' :: clean_string_loop .Escaped rest
    else c :: clean_string_loop .NotEscaped rest
  | _, [] => []

/-- `clean_string` of `sort_by_author.rs`. -/
def clean_string (s : List Char) : List Char :=
  clean_string_loop .NotEscaped s

/-- `BracketOrQuote` of `sort_by_author.rs`. -/
inductive BracketOrQuote
  | None
  | OpenBracket (num : Nat)
  | SingleQuote
  | DoubleQuote
deriving DecidableEq, Repr

/-- The loop of `first_author_field_content`.  `acc` holds the slice
captured so far (the Rust code captures positionally from the delimiter's
index through the closing delimiter, so escape pairs inside the value are
kept verbatim).  A backslash skips the following character in every state.
Returns `some` captured slice when the closing delimiter is reached and
`none` when the iterator is exhausted first (in which case the Rust
function leaves `field` at the whole input). -/
def facLoop : BracketOrQuote → List Char → List Char → Option (List Char)
  | _, _, [] => none
  | st, acc, c :: rest =>
    if c = '\\' then
      match rest with
      | [] => none
      | c2 :: rest2 => facLoop st (acc ++ [c, c2]) rest2
    else
      match st with
      | .None =>
        if c = '{' then facLoop (.OpenBracket 1) [c] rest
        else if c = '\'' then facLoop .SingleQuote [c] rest
        else if c = '"' then facLoop .DoubleQuote [c] rest
        else facLoop .None acc rest
      | .OpenBracket num =>
        if c = '{' then facLoop (.OpenBracket (num + 1)) (acc ++ [c]) rest
        else if c = '}' then
          if num = 1 then some (acc ++ [c])
          else facLoop (.OpenBracket (num - 1)) (acc ++ [c]) rest
        else facLoop (.OpenBracket num) (acc ++ [c]) rest
      | .SingleQuote =>
        if c = '\'' then some (acc ++ [c]) else facLoop .SingleQuote (acc ++ [c]) rest
      | .DoubleQuote =>
        if c = '"' then some (acc ++ [c]) else facLoop .DoubleQuote (acc ++ [c]) rest

/-- `first_author_field_content` of `sort_by_author.rs`: the first
delimited value (braces, single or double quotes, delimiters retained,
nested braces balanced, backslash escapes skipped); if no delimiter is
ever closed, the whole input unchanged. -/
def first_author_field_content (field : List Char) : List Char :=
  match facLoop .None [] field with
  | some captured => captured
  | none => field

/-- `first_author_from_content` of `sort_by_author.rs`: locate the author
field assignment, extract its delimited value, cut it at the first
whole-word case-insensitive `and`, and clean it. -/
def first_author_from_content (content : List Char) : List Char :=
  match findAssignEnd authorWord content with
  | none => []
  | some e =>
    let afn := first_author_field_content (content.drop e)
    let afn :=
      match findWordStart andWord afn with
      | some start => afn.take start
      | none => afn
    clean_string afn

/-- Model of Rust `str::split(',')`: split at every comma; never empty. -/
def splitOnComma : List Char → List (List Char)
  | [] => [[]]
  | c :: rest =>
    if c = ',' then [] :: splitOnComma rest
    else
      match splitOnComma rest with
      | [] => [[c]]
      | p :: ps => (c :: p) :: ps

/-- `first_author_first_name` of `sort_by_author.rs`: trim the first-author
text, split on commas; one part is used as-is, two parts are reassembled
as "First Last", and more than two parts is a fatal assertion failure. -/
def first_author_first_name (content : List Char) : Except String (List Char) :=
  let fac := trimChars (first_author_from_content content)
  match splitOnComma fac with
  | [] => .error "split yielded no parts"
  | [one] => .ok (trimChars one)
  | [last_, first_] => .ok (trimChars first_ ++ ' ' :: trimChars last_)
  | _ => .error "too many commas in first author of a bib entry"

/-- Comparator used to model `slice::sort_by_cached_key`: the Rust
implementation sorts the vector of (key, original index) pairs, which is
what makes the sort stable.  Keys are compared by `lexLe`; equal keys fall
back to the original index. -/
def cachedKeyLe {α : Type} (key : α → List Char) (p q : Nat × α) : Bool :=
  if key p.2 = key q.2 then decide (p.1 ≤ q.1) else lexLe (key p.2) (key q.2)

/-- The proposition form of `cachedKeyLe`. -/
def cachedKeyRel {α : Type} (key : α → List Char) (p q : Nat × α) : Prop :=
  cachedKeyLe key p q = true

instance {α : Type} (key : α → List Char) : DecidableRel (cachedKeyRel key) :=
  fun p q => instDecidableEqBool (cachedKeyLe key p q) true

/-- Model of `slice::sort_by_cached_key` with a text-valued key: tag each
element with its index, sort the pairs by (key, original index) — which is
how the Rust implementation realises the sort and what makes it stable —
and drop the tags.  On the index-tagged pairs the order is total,
transitive and antisymmetric, so every correct sorting algorithm produces
the same output; insertion sort is used because it is structurally
recursive and hence computable by the kernel. -/
def sort_by_cached_key {α : Type} (key : α → List Char) (l : List α) : List α :=
  ((l.enum).insertionSort (cachedKeyRel key)).map Prod.snd

/-- `sort_by_first_author_field` of `sort_by_author.rs`. -/
def sort_by_first_author_field (cf : List Char → List Char) (entries : List BibEntry) :
    List BibEntry :=
  sort_by_cached_key (fun e => cf (first_author_from_content e.content)) entries

/-- The cached-key pass of `sort_by_cached_key` with the fallible
first-name key closure: compute the keys in iteration order, propagating
the first panic. -/
def collectKeys (cf : List Char → List Char) : List BibEntry → Except String (List (List Char))
  | [] => .ok []
  | e :: rest =>
    match (first_author_first_name e.content).map cf with
    | .error err => .error err
    | .ok k =>
      match collectKeys cf rest with
      | .error err => .error err
      | .ok ks => .ok (k :: ks)

/-- `sort_by_first_author_first_name` of `sort_by_author.rs`: the key
closure can panic (more than one comma), which Rust raises while the sort
computes the cached keys; modelled by computing all keys first and then
sorting the key-tagged entries stably by key. -/
def sort_by_first_author_first_name (cf : List Char → List Char) (entries : List BibEntry) :
    Except String (List BibEntry) :=
  match collectKeys cf entries with
  | .error e => .error e
  | .ok keys => .ok ((sort_by_cached_key Prod.fst (keys.zip entries)).map Prod.snd)

/-- The duplicate-key scan of `main` (lines 214-225): over all adjacent
pairs of the key-sorted entries, report every pair with equal non-empty
keys (one `Duplicate key` message per pair, modelled by the offending
key). -/
def dupKeyMessages (entries : List BibEntry) : List (List Char) :=
  (entries.zip entries.tail).filterMap fun p =>
    if p.1.id ≠ [] ∧ p.1.id = p.2.id then some p.1.id else none

/-- The character class of the `doi_regex` pattern `10\.[\)\(\.\w/\-:]+`. -/
def isDoiChar (c : Char) : Bool :=
  c = ')' || c = '(' || c = '.' || isWordChar c || c = '/' || c = '-' || c = ':'

/-- Whether the `doi_regex` pattern `10\.[\)\(\.\w/\-:]+` matches at the
front of `s`; on success, the greedily extended token. -/
def doiTokenAt : List Char → Option (List Char)
  | '1' :: '0' :: '.' :: c :: rest =>
    if isDoiChar c then some ('1' :: '0' :: '.' :: c :: rest.takeWhile isDoiChar)
    else none
  | _ => none

/-- Model of `doi_regex.find`: the leftmost occurrence of `10.` followed by
at least one class character, extended greedily. -/
def findDoiToken : List Char → Option (List Char)
  | [] => none
  | c :: rest =>
    match doiTokenAt (c :: rest) with
    | some t => some t
    | none => findDoiToken rest

/-- Model of `str::split_once(',')` as used on the DOI field: the part
before the first comma, or the whole text when there is none. -/
def splitOnceBeforeComma (s : List Char) : List Char :=
  s.takeWhile fun c => !(c = ',')

/-- The DOI duplicate scan of `main` (lines 227-276): iterate the entries,
skip empty keys and entries without a `doi = ` assignment; an assignment
whose field (up to the first comma) holds no DOI-shaped token is fatal
unless empty DOIs are allowed; found tokens go into a set and a repeated
token is reported (one `Duplicate DOI` message per repeat, modelled by the
token). -/
def doiPassLoop (o : Opts) :
    List BibEntry → List (List Char) → List (List Char) → Except String (List (List Char))
  | [], _, msgs => .ok msgs.reverse
  | e :: rest, doiSet, msgs =>
    if e.id = [] then doiPassLoop o rest doiSet msgs
    else
      match findAssignEnd doiWord e.content with
      | none => doiPassLoop o rest doiSet msgs
      | some endPos =>
        let s := splitOnceBeforeComma (e.content.drop endPos)
        match findDoiToken s with
        | none =>
          if o.allow_empty_doi then doiPassLoop o rest doiSet msgs
          else .error "cannot parse DOI in item"
        | some doi =>
          if doi ∈ doiSet then doiPassLoop o rest doiSet (doi :: msgs)
          else doiPassLoop o rest (doi :: doiSet) msgs

/-- The DOI duplicate scan, started with an empty set. -/
def doiPass (o : Opts) (entries : List BibEntry) : Except String (List (List Char)) :=
  doiPassLoop o entries [] []

/-- The body of `if !opts.no_duplicate_detection` in `main` (lines
212-287): run the key scan, then (unless DOI duplicates are allowed) the
DOI scan, and abort when either reported anything. -/
def dupCheck (o : Opts) (entries : List BibEntry) : Except String Unit :=
  let keyMsgs := dupKeyMessages entries
  if !o.allow_doi_duplicates then
    match doiPass o entries with
    | .error e => .error e
    | .ok doiMsgs =>
      if !keyMsgs.isEmpty || !doiMsgs.isEmpty then
        .error "file contains at least one duplicate key or duplicate doi, aborted writing"
      else .ok ()
  else
    if !keyMsgs.isEmpty then
      .error "file contains at least one duplicate key or duplicate doi, aborted writing"
    else .ok ()

/-- The validation and sorting phase of `main` (lines 211-305): sort by
key, run duplicate detection unless disabled, then apply the optional
author-based sorts. -/
def processEntries (o : Opts) (entries : List BibEntry) : Except String (List BibEntry) :=
  let sorted := sort_by_cached_key (fun e => e.id) entries
  match (if !o.no_duplicate_detection then dupCheck o sorted else .ok ()) with
  | .error e => .error e
  | .ok _ =>
    let sorted2 :=
      if o.sort_by_first_author_field then
        sort_by_first_author_field (case_fn o.case_sensitive) sorted
      else sorted
    if o.sort_by_first_author_first_name then
      sort_by_first_author_first_name (case_fn o.case_sensitive) sorted2
    else .ok sorted2

/-- `write_entries` of `main.rs`: write each entry's raw text followed by a
blank line (`writeln` of the content plus one extra newline). -/
def write_entries (entries : List BibEntry) : List Char :=
  entries.foldr (fun e acc => e.content ++ '\n' :: '\n' :: acc) []

/-- The whole run of `main` after I/O setup: segment the input lines into
entries, validate and sort, and produce the output text. -/
def runPipeline (o : Opts) (lines : List (List Char)) : Except String (List Char) :=
  match parse_entries o lines with
  | .error e => .error e
  | .ok entries =>
    match processEntries o entries with
    | .error e => .error e
    | .ok sorted => .ok (write_entries sorted)

/-- The stopping condition of the Brace Balancer, stated over prefixes:
after scanning the first `n` characters of `s` (with carried-in counters
`c₀`), the last scanned character is a `}`, the open and close counters are
equal, and at least one `{` has been counted.  The balancer stops at the
least such `n`. -/
def balancedAt (c₀ : BracketCounter) (s : List Char) (n : Nat) : Prop :=
  0 < n ∧ n ≤ s.length ∧ (s.take n).getLast? = some '}' ∧
    c₀.openC + (s.take n).count '{' = c₀.closeC + (s.take n).count '}' ∧
    0 < c₀.openC + (s.take n).count '{'

instance (c₀ : BracketCounter) (s : List Char) (n : Nat) : Decidable (balancedAt c₀ s n) := by
  unfold balancedAt; infer_instance

/-- No-over-close condition for the Brace Balancer: within the first `n`
characters, the running close counter never exceeds the running open
counter (the code treats that as a fatal structural error). -/
def neverOverClosed (c₀ : BracketCounter) (s : List Char) (n : Nat) : Prop :=
  ∀ m, m ≤ n → c₀.closeC + (s.take m).count '}' ≤ c₀.openC + (s.take m).count '{'

instance (c₀ : BracketCounter) (s : List Char) (n : Nat) : Decidable (neverOverClosed c₀ s n) := by
  unfold neverOverClosed; infer_instance

/-- A character that is none of the extractor's special characters
(braces, quotes, backslash). -/
def plainChar (c : Char) : Bool :=
  !(c = '{' || c = '}' || c = '\'' || c = '"' || c = '\\')

/-- Spec-side reading of "adjacent pair with equal, non-empty keys":
whether positions `i` and `i + 1` of `es` hold such a pair. -/
def adjDupAt (es : List BibEntry) (i : Nat) : Bool :=
  match es[i]?, es[i + 1]? with
  | some a, some b => decide (a.id ≠ [] ∧ a.id = b.id)
  | _, _ => false

/-- Two entries with distinct keys but the same DOI. -/
def dupDoiEntries : List BibEntry :=
  [⟨"aaa".toList, "@article{aaa, doi = {10.1/x}}".toList⟩,
   ⟨"bbb".toList, "@article{bbb, doi = {10.1/x}}".toList⟩]

/-- Two entries with the same author field, listed in reverse key order. -/
def sameAuthorEntries : List BibEntry :=
  [⟨"zzz".toList, "@article{zzz, author = {Same}}".toList⟩,
   ⟨"aaa".toList, "@article{aaa, author = {Same}}".toList⟩]

/-!  ## Order lemmas for the sort comparators  -/

theorem lexLe_refl (l : List Char) : lexLe l l = true := by
  induction l with
  | nil => rfl
  | cons a as ih => simp [lexLe, ih]

theorem lexLe_total (a b : List Char) : lexLe a b = true ∨ lexLe b a = true := by
  induction a generalizing b with
  | nil => left; rfl
  | cons x xs ih =>
    cases b with
    | nil => right; rfl
    | cons y ys =>
      by_cases h : x = y
      · subst h
        simpa [lexLe] using ih ys
      · rcases lt_or_gt_of_ne h with hlt | hgt
        · left; simp [lexLe, h, hlt]
        · right; simp [lexLe, Ne.symm h, hgt]

theorem lexLe_trans {a b c : List Char} (h1 : lexLe a b = true) (h2 : lexLe b c = true) :
    lexLe a c = true := by
  induction a generalizing b c with
  | nil => rfl
  | cons x xs ih =>
    cases b with
    | nil => simp [lexLe] at h1
    | cons y ys =>
      cases c with
      | nil => simp [lexLe] at h2
      | cons z zs =>
        by_cases hxy : x = y
        · subst hxy
          by_cases hxz : x = z
          · subst hxz
            simp only [lexLe, if_pos rfl] at h1 h2 ⊢
            exact ih h1 h2
          · simp only [lexLe, if_pos rfl] at h1
            simp only [lexLe, if_neg hxz] at h2 ⊢
            exact h2
        · simp only [lexLe, if_neg hxy, decide_eq_true_eq] at h1
          by_cases hyz : y = z
          · subst hyz
            simp [lexLe, hxy, h1]
          · simp only [lexLe, if_neg hyz, decide_eq_true_eq] at h2
            have hxz : x < z := lt_trans h1 h2
            simp [lexLe, ne_of_lt hxz, hxz]

theorem lexLe_antisymm {a b : List Char} (h1 : lexLe a b = true) (h2 : lexLe b a = true) :
    a = b := by
  induction a generalizing b with
  | nil =>
    cases b with
    | nil => rfl
    | cons y ys => simp [lexLe] at h2
  | cons x xs ih =>
    cases b with
    | nil => simp [lexLe] at h1
    | cons y ys =>
      by_cases hxy : x = y
      · subst hxy
        simp only [lexLe, if_pos rfl] at h1 h2
        exact congrArg (x :: ·) (ih h1 h2)
      · simp only [lexLe, if_neg hxy, decide_eq_true_eq] at h1
        simp only [lexLe, if_neg (Ne.symm hxy), decide_eq_true_eq] at h2
        exact absurd h1 (not_lt_of_gt h2)

theorem cachedKeyLe_trans {α : Type} (key : α → List Char) {p q r : Nat × α}
    (h1 : cachedKeyLe key p q = true) (h2 : cachedKeyLe key q r = true) :
    cachedKeyLe key p r = true := by
  unfold cachedKeyLe at h1 h2 ⊢
  by_cases e1 : key p.2 = key q.2 <;> by_cases e2 : key q.2 = key r.2
  · rw [if_pos e1] at h1
    rw [if_pos e2] at h2
    rw [if_pos (e1.trans e2)]
    simp only [decide_eq_true_eq] at h1 h2 ⊢
    exact le_trans h1 h2
  · have e3 : key p.2 ≠ key r.2 := e1 ▸ e2
    rw [if_neg e2] at h2
    rw [if_neg e3, e1]
    exact h2
  · have e3 : key p.2 ≠ key r.2 := fun h => e1 (h.trans e2.symm)
    rw [if_neg e1] at h1
    rw [if_neg e3, ← e2]
    exact h1
  · rw [if_neg e1] at h1
    rw [if_neg e2] at h2
    by_cases e3 : key p.2 = key r.2
    · exact absurd (lexLe_antisymm h1 (e3 ▸ h2)) e1
    · rw [if_neg e3]
      exact lexLe_trans h1 h2

theorem cachedKeyLe_total {α : Type} (key : α → List Char) (p q : Nat × α) :
    cachedKeyLe key p q = true ∨ cachedKeyLe key q p = true := by
  unfold cachedKeyLe
  by_cases e : key p.2 = key q.2
  · rw [if_pos e, if_pos e.symm]
    rcases Nat.le_total p.1 q.1 with h | h
    · left; simpa using h
    · right; simpa using h
  · rw [if_neg e, if_neg (Ne.symm e)]
    exact lexLe_total _ _

theorem cachedKeyRel_trans {α : Type} (key : α → List Char) {p q r : Nat × α}
    (h1 : cachedKeyRel key p q) (h2 : cachedKeyRel key q r) : cachedKeyRel key p r :=
  cachedKeyLe_trans key h1 h2

theorem cachedKeyRel_total {α : Type} (key : α → List Char) (p q : Nat × α) :
    cachedKeyRel key p q ∨ cachedKeyRel key q p :=
  cachedKeyLe_total key p q

/-!  ## Properties of the `sort_by_cached_key` model  -/

theorem sort_by_cached_key_perm {α : Type} (key : α → List Char) (l : List α) :
    (sort_by_cached_key key l).Perm l := by
  unfold sort_by_cached_key
  have h := (List.perm_insertionSort (cachedKeyRel key) l.enum).map Prod.snd
  rwa [List.enum_map_snd] at h

theorem sort_by_cached_key_sorted_pairs {α : Type} (key : α → List Char) (l : List α) :
    ((l.enum).insertionSort (cachedKeyRel key)).Pairwise (cachedKeyRel key) := by
  haveI : IsTotal (Nat × α) (cachedKeyRel key) := ⟨cachedKeyRel_total key⟩
  haveI : IsTrans (Nat × α) (cachedKeyRel key) := ⟨fun _ _ _ => cachedKeyRel_trans key⟩
  exact List.sorted_insertionSort (cachedKeyRel key) l.enum

theorem sort_by_cached_key_pairwise {α : Type} (key : α → List Char) (l : List α) :
    (sort_by_cached_key key l).Pairwise (fun a b => lexLe (key a) (key b) = true) := by
  unfold sort_by_cached_key
  refine List.Pairwise.map Prod.snd ?_ (sort_by_cached_key_sorted_pairs key l)
  intro p q hpq
  unfold cachedKeyRel cachedKeyLe at hpq
  by_cases e : key p.2 = key q.2
  · rw [e]; exact lexLe_refl _
  · rwa [if_neg e] at hpq

theorem sort_by_cached_key_stable {α : Type} (key : α → List Char) {l : List α}
    {a b : α} (pre mid post : List α) (hl : l = pre ++ a :: (mid ++ b :: post))
    (hk : key a = key b) : [a, b].Sublist (sort_by_cached_key key l) := by
  subst hl
  have henum : (pre ++ a :: (mid ++ b :: post)).enum =
      List.enumFrom 0 pre ++ (pre.length, a) ::
        (List.enumFrom (pre.length + 1) mid ++
          (pre.length + 1 + mid.length, b) :: List.enumFrom (pre.length + 1 + mid.length + 1) post) := by
    show List.enumFrom 0 (pre ++ a :: (mid ++ b :: post)) = _
    rw [List.enumFrom_append, List.enumFrom_cons, List.enumFrom_append, List.enumFrom_cons]
    simp [Nat.add_comm, Nat.add_assoc, Nat.add_left_comm]
  have hsub : [(pre.length, a), (pre.length + 1 + mid.length, b)].Sublist
      ((pre ++ a :: (mid ++ b :: post)).enum) := by
    rw [henum]
    refine List.Sublist.trans ?_ (List.sublist_append_right _ _)
    refine List.Sublist.cons₂ _ ?_
    refine List.Sublist.trans ?_ (List.sublist_append_right _ _)
    exact List.Sublist.cons₂ _ (List.nil_sublist _)
  have hab : cachedKeyRel key (pre.length, a) (pre.length + 1 + mid.length, b) := by
    unfold cachedKeyRel cachedKeyLe
    simp only [if_pos hk]
    simp only [decide_eq_true_eq]
    omega
  have := List.pair_sublist_insertionSort hab hsub
  have hmap := this.map Prod.snd
  exact hmap

/-- Ties in a `sort_by_cached_key` are resolved by the original order: any
property `S` that holds pairwise on the input (and reflexively on its
elements) still holds, in the output, for every ordered pair whose keys
are equal. -/
theorem sort_by_cached_key_tie {α : Type} (key : α → List Char) (S : α → α → Prop)
    (l : List α) (hrefl : ∀ x ∈ l, S x x) (hpw : l.Pairwise S) :
    (sort_by_cached_key key l).Pairwise (fun a b => key a = key b → S a b) := by
  unfold sort_by_cached_key
  have hsorted := sort_by_cached_key_sorted_pairs key l
  have hmem := List.Pairwise.and_mem.mp hsorted
  refine List.Pairwise.map Prod.snd ?_ hmem
  rintro ⟨i, x⟩ ⟨j, y⟩ ⟨hpmem, hqmem, hrel⟩ hkey
  have hperm := List.perm_insertionSort (cachedKeyRel key) l.enum
  have hpx := List.mem_enum (hperm.subset hpmem)
  have hqy := List.mem_enum (hperm.subset hqmem)
  unfold cachedKeyRel cachedKeyLe at hrel
  simp only at hrel hkey
  rw [if_pos hkey] at hrel
  have hij : i ≤ j := by simpa using hrel
  rcases Nat.lt_or_ge i j with hlt | hge
  · have := List.pairwise_iff_getElem.mp hpw i j hpx.1 hqy.1 hlt
    rw [hpx.2, hqy.2]
    exact this
  · have hji : i = j := le_antisymm hij hge
    subst hji
    rw [hpx.2, hqy.2]
    exact hrefl _ (List.getElem_mem _)

/-!  ## Helpers for the escape-handling claims  -/

theorem facLoop_open_plain_closing (w : List Char) (tail : List Char) (acc : List Char)
    (h : ∀ c ∈ w, plainChar c = true) :
    facLoop (.OpenBracket 1) acc (w ++ '}' :: tail) = some (acc ++ w ++ ['}']) := by
  induction w generalizing acc with
  | nil =>
    conv_lhs => unfold facLoop
    simp
  | cons c w' ih =>
    have hc := h c (by simp)
    simp only [plainChar, Bool.not_eq_true', Bool.or_eq_false_iff, decide_eq_false_iff_not] at hc
    obtain ⟨⟨⟨⟨h1, h2⟩, h3⟩, h4⟩, h5⟩ := hc
    have hrest : ∀ x ∈ w', plainChar x = true := fun x hx => h x (by simp [hx])
    rw [List.cons_append]
    conv_lhs => unfold facLoop
    simp only [if_neg h5, if_neg h1, if_neg h2]
    rw [ih (acc ++ [c]) hrest]
    simp

theorem facLoop_open_escape_skip (v : List Char) (c0 : Char) (rest : List Char) (acc : List Char)
    (h : ∀ c ∈ v, plainChar c = true) :
    facLoop (.OpenBracket 1) acc (v ++ '\\' :: c0 :: rest) =
      facLoop (.OpenBracket 1) (acc ++ v ++ ['\\', c0]) rest := by
  induction v generalizing acc with
  | nil =>
    conv_lhs => unfold facLoop
    simp
  | cons c v' ih =>
    have hc := h c (by simp)
    simp only [plainChar, Bool.not_eq_true', Bool.or_eq_false_iff, decide_eq_false_iff_not] at hc
    obtain ⟨⟨⟨⟨h1, h2⟩, h3⟩, h4⟩, h5⟩ := hc
    have hrest : ∀ x ∈ v', plainChar x = true := fun x hx => h x (by simp [hx])
    rw [List.cons_append]
    conv_lhs => unfold facLoop
    simp only [if_neg h5, if_neg h1, if_neg h2]
    rw [ih (acc ++ [c]) hrest]
    simp

theorem count_brackets_plain_escaped_close (v : List Char) (tail : List Char)
    (h : ∀ c ∈ v, plainChar c = true) :
    count_brackets ⟨1, 0⟩ (v ++ '\\' :: '}' :: tail) =
      .ok (v ++ ['\\', '}'], ⟨1, 1⟩, if tail.isEmpty then none else some tail) := by
  induction v with
  | nil =>
    conv_lhs => unfold count_brackets
    simp only [List.nil_append]
    conv_lhs => unfold count_brackets
    simp
  | cons c v' ih =>
    have hc := h c (by simp)
    simp only [plainChar, Bool.not_eq_true', Bool.or_eq_false_iff, decide_eq_false_iff_not] at hc
    obtain ⟨⟨⟨⟨h1, h2⟩, h3⟩, h4⟩, h5⟩ := hc
    have hrest : ∀ x ∈ v', plainChar x = true := fun x hx => h x (by simp [hx])
    rw [List.cons_append]
    conv_lhs => unfold count_brackets
    simp only [if_neg h1, if_neg h2]
    rw [ih hrest]
    simp

/-!  ## Helpers for the author-name claims  -/

theorem splitOnComma_ne_nil (l : List Char) : splitOnComma l ≠ [] := by
  cases l with
  | nil => simp [splitOnComma]
  | cons c rest =>
    by_cases h : c = ','
    · simp [splitOnComma, h]
    · simp only [splitOnComma, if_neg h]
      cases hs : splitOnComma rest <;> simp

theorem splitOnComma_length (l : List Char) : (splitOnComma l).length = l.count ',' + 1 := by
  induction l with
  | nil => rfl
  | cons c rest ih =>
    by_cases h : c = ','
    · subst h
      simp [splitOnComma, List.count_cons, ih]
    · have hne := splitOnComma_ne_nil rest
      cases hs : splitOnComma rest with
      | nil => exact absurd hs hne
      | cons p ps =>
        rw [hs] at ih
        simp only [splitOnComma, if_neg h, hs, List.length_cons, List.count_cons]
        simp only [List.length_cons] at ih
        have hbeq : (c == ',') = false := by
          simpa using h
        simp [hbeq]
        omega

/-!  ## The claims  -/

/-- C7 counterexample: the claim says an escaped brace changes neither the
Brace Balancer's counters nor the Field Extractor's depth, but
`count_brackets` has no escape handling at all: scanning the two
characters backslash-brace increments the open counter from 0 to 1. -/
theorem c7_counterexample :
    count_brackets ⟨0, 0⟩ ['\\', '{'] =
        .ok (['\\', '{'], (⟨1, 0⟩ : BracketCounter), none) ∧
      (⟨1, 0⟩ : BracketCounter).openC ≠ (⟨0, 0⟩ : BracketCounter).openC :=
  ⟨rfl, by decide⟩

/-- C7 amended: an escaped brace does not affect the Field Extractor's
nesting depth (inside a brace-delimited value, an escaped open brace is
skipped, so the next unescaped close brace still terminates the value),
but the Brace Balancer counts every brace, escaped or not (an escaped
close brace terminates the entry and leaves the rest of the line as
leftover). -/
theorem c7_amended :
    (∀ v w : List Char, (∀ c ∈ v, plainChar c = true) → (∀ c ∈ w, plainChar c = true) →
      first_author_field_content ('{' :: v ++ '\\' :: '{' :: (w ++ ['}', 'X'])) =
        '{' :: v ++ '\\' :: '{' :: (w ++ ['}'])) ∧
    (∀ v : List Char, (∀ c ∈ v, plainChar c = true) →
      count_brackets ⟨0, 0⟩ ('{' :: v ++ '\\' :: '}' :: ['X']) =
        .ok ('{' :: v ++ ['\\', '}'], (⟨1, 1⟩ : BracketCounter), some ['X'])) := by
  constructor
  · intro v w hv hw
    unfold first_author_field_content
    have h0 : facLoop .None [] ('{' :: (v ++ '\\' :: '{' :: (w ++ ['}', 'X']))) =
        some ('{' :: (v ++ '\\' :: '{' :: (w ++ ['}']))) := by
      conv_lhs => unfold facLoop
      simp only [if_neg (by decide : ¬('{' : Char) = '\\'), if_pos rfl]
      rw [facLoop_open_escape_skip v '{' (w ++ ['}', 'X']) ['{'] hv]
      rw [show w ++ ['}', 'X'] = w ++ '}' :: ['X'] from rfl]
      rw [facLoop_open_plain_closing w ['X'] _ hw]
      simp
    rw [List.cons_append, h0]
    simp
  · intro v hv
    rw [List.cons_append]
    conv_lhs => unfold count_brackets
    simp only [if_pos rfl]
    rw [show v ++ '\\' :: '}' :: ['X'] = v ++ '\\' :: '}' :: ['X'] from rfl]
    rw [count_brackets_plain_escaped_close v ['X'] hv]
    simp

/-- C7 amended witness at concrete plain runs. -/
theorem c7_witness :
    first_author_field_content ('{' :: ['a'] ++ '\\' :: '{' :: (['b'] ++ ['}', 'X'])) =
        '{' :: ['a'] ++ '\\' :: '{' :: (['b'] ++ ['}']) ∧
      count_brackets ⟨0, 0⟩ ('{' :: ['a'] ++ '\\' :: '}' :: ['X']) =
        .ok ('{' :: ['a'] ++ ['\\', '}'], (⟨1, 1⟩ : BracketCounter), some ['X']) :=
  ⟨c7_amended.1 ['a'] ['b'] (by decide) (by decide),
   c7_amended.2 ['a'] (by decide)⟩

/-- C8 counterexample: the claim says `clean_string` drops the backslash
of an escape sequence, but the code pushes the backslash before switching
to escaped mode: cleaning backslash-brace yields backslash-brace, not
brace alone. -/
theorem c8_counterexample :
    clean_string ['\\', '{'] = ['\\', '{'] ∧ clean_string ['\\', '{'] ≠ ['{'] :=
  ⟨rfl, by decide⟩

/-- C8 amended: `clean_string` removes every unescaped brace and quote,
and for every escape sequence it keeps both the backslash and the escaped
character literally. -/
theorem c8_amended :
    (∀ s : List Char, ∀ c ∈ ['{', '}', '\'', '"'], clean_string (c :: s) = clean_string s) ∧
    (∀ (c : Char) (s : List Char), clean_string ('\\' :: c :: s) = '\\' :: c :: clean_string s) ∧
    (∀ (c : Char) (s : List Char), c ∉ ['{', '}', '\'', '"', '\\'] →
      clean_string (c :: s) = c :: clean_string s) ∧
    clean_string ['\\'] = ['\\'] := by
  refine ⟨?_, ?_, ?_, rfl⟩
  · intro s c hc
    fin_cases hc <;> simp [clean_string, clean_string_loop]
  · intro c s
    simp [clean_string, clean_string_loop]
  · intro c s hc
    simp only [List.mem_cons, List.mem_singleton, not_or] at hc
    obtain ⟨h1, h2, h3, h4, h5⟩ := hc
    simp [clean_string, clean_string_loop, h1, h2, h3, h4, h5]

/-- C8 amended witness at concrete characters. -/
theorem c8_witness :
    clean_string ['{', 'a'] = clean_string ['a'] ∧
      clean_string ['\\', '}', 'b'] = '\\' :: '}' :: clean_string ['b'] ∧
      clean_string ['a', 'b'] = 'a' :: clean_string ['b'] :=
  ⟨c8_amended.1 ['a'] '{' (by decide), c8_amended.2.1 '}' ['b'],
   c8_amended.2.2.1 'a' ['b'] (by decide)⟩

/-- C9 counterexample: for the author field value `Smith, John AND Doe,
Jane`, `first_author_from_content` keeps the whitespace that preceded the
`AND` separator, returning `Smith, John ` with a trailing space rather
than exactly `Smith, John`. -/
theorem c9_counterexample :
    first_author_from_content ("author = {Smith, John AND Doe, Jane}".toList) =
        "Smith, John ".toList ∧
      ("Smith, John ".toList : List Char) ≠ "Smith, John".toList :=
  ⟨rfl, by decide⟩

/-- C9 amended: for that author field, `first_author_from_content` returns
`Smith, John ` (trailing space included), `first_author_first_name`
returns exactly `John Smith` (it trims), and whenever the trimmed first
author text contains more than one comma, `first_author_first_name` is a
fatal error. -/
theorem c9_amended :
    first_author_from_content ("author = {Smith, John AND Doe, Jane}".toList) =
        "Smith, John ".toList ∧
      first_author_first_name ("author = {Smith, John AND Doe, Jane}".toList) =
        .ok ("John Smith".toList) ∧
      (∀ content : List Char,
        2 ≤ (trimChars (first_author_from_content content)).count ',' →
        first_author_first_name content =
          .error "too many commas in first author of a bib entry") := by
  refine ⟨rfl, rfl, ?_⟩
  intro content h
  have hlen := splitOnComma_length (trimChars (first_author_from_content content))
  rcases hsp : splitOnComma (trimChars (first_author_from_content content)) with
    _ | ⟨p1, _ | ⟨p2, _ | ⟨p3, ps⟩⟩⟩
  · exact absurd hsp (splitOnComma_ne_nil _)
  · rw [hsp] at hlen
    simp at hlen
    omega
  · rw [hsp] at hlen
    simp at hlen
    omega
  · simp only [first_author_first_name, hsp]

/-- C9 amended witness: a first author with two commas is rejected. -/
theorem c9_witness :
    2 ≤ (trimChars (first_author_from_content ("author = {Doe, John, Jr.}".toList))).count ',' ∧
      first_author_first_name ("author = {Doe, John, Jr.}".toList) =
        .error "too many commas in first author of a bib entry" :=
  ⟨by decide, c9_amended.2.2 ("author = {Doe, John, Jr.}".toList) (by decide)⟩

/-!  ## Helpers for the key-extraction claim  -/

theorem lastIdxOf_eq_none {c : Char} {s : List Char} (h : ∀ k : Nat, s[k]? ≠ some c) :
    lastIdxOf c s = none := by
  induction s with
  | nil => rfl
  | cons a rest ih =>
    have hrest : ∀ k : Nat, rest[k]? ≠ some c := fun k => by
      have := h (k + 1)
      rwa [List.getElem?_cons_succ] at this
    have ha : ¬a = c := fun e => h 0 (by simp [e])
    simp [lastIdxOf, ih hrest, ha]

theorem lastIdxOf_eq_some {c : Char} {s : List Char} {j : Nat} (hj : s[j]? = some c)
    (hlast : ∀ k : Nat, j < k → s[k]? ≠ some c) : lastIdxOf c s = some j := by
  induction s generalizing j with
  | nil => simp at hj
  | cons a rest ih =>
    cases j with
    | zero =>
      have hrest : ∀ k : Nat, rest[k]? ≠ some c := fun k => by
        have := hlast (k + 1) (Nat.succ_pos k)
        rwa [List.getElem?_cons_succ] at this
      have ha : a = c := by simpa using hj
      simp [lastIdxOf, lastIdxOf_eq_none hrest, ha]
    | succ j' =>
      rw [List.getElem?_cons_succ] at hj
      have hlast' : ∀ k : Nat, j' < k → rest[k]? ≠ some c := fun k hk => by
        have := hlast (k + 1) (by omega)
        rwa [List.getElem?_cons_succ] at this
      simp [lastIdxOf, ih hj hlast']

theorem firstIdxOf_head {s : List Char} {c : Char} (h : s.head? = some c) :
    firstIdxOf c s = some 0 := by
  cases s with
  | nil => simp at h
  | cons a rest =>
    have ha : a = c := by simpa using h
    simp [firstIdxOf, ha]

theorem dropWhile_head_not {p : Char → Bool} {l : List Char} :
    ∀ c, (l.dropWhile p).head? = some c → p c = false := by
  induction l with
  | nil => intro c h; simp at h
  | cons a rest ih =>
    intro c h
    by_cases ha : p a
    · rw [List.dropWhile_cons_of_pos ha] at h
      exact ih c h
    · rw [List.dropWhile_cons_of_neg ha] at h
      have : a = c := by simpa using h
      subst this
      simpa using ha

/-- C1 counterexample: on the spec's own single-line entry
`@article{zzz, title={X}}` the claim (key taken after the first `{` of the
line) predicts key `zzz`, but the greedy regex `@.*\{` matches up to the
last `{` of the line, so the program extracts (case-folded) key `x}}`. -/
theorem c1_counterexample :
    parse_entries {} ["@article{zzz, title={X}}".toList] =
        .ok [⟨['x', '}', '}'], "@article{zzz, title={X}}".toList⟩] ∧
      (['x', '}', '}'] : List Char) ≠ "zzz".toList :=
  ⟨rfl, by decide⟩

/-- C1 amended: the entry marker is located by the greedy pattern "`@`,
any characters, the *last* `{` on the line"; the citation key is the first
maximal run of non-comma, non-whitespace characters in the remainder of
the line after that brace (fatal when absent unless empty keys are
permitted, in which case the key is empty).  The second and third
conjuncts pin down `findIdRun` as exactly that first maximal run. -/
theorem c1_amended :
    (∀ (o : Opts) (t : List Char) (j : Nat),
      t.head? = some '@' → t[j]? = some '{' → (∀ k : Nat, j < k → t[k]? ≠ some '{') →
      extract_id o t =
        match findIdRun (t.drop (j + 1)) with
        | none => if o.allow_empty_keys then .ok [] else .error "cannot find key in line"
        | some run => .ok (case_fn o.case_sensitive run)) ∧
    (∀ s : List Char, findIdRun s = none ↔ ∀ c ∈ s, idOk c = false) ∧
    (∀ s run : List Char, findIdRun s = some run →
      ∃ pre post, s = pre ++ run ++ post ∧ (∀ c ∈ pre, idOk c = false) ∧ run ≠ [] ∧
        (∀ c ∈ run, idOk c = true) ∧ (∀ c, post.head? = some c → idOk c = false)) := by
  refine ⟨?_, ?_, ?_⟩
  · intro o t j hat hj hlast
    have hj0 : 0 < j := by
      rcases Nat.eq_zero_or_pos j with h0 | h
      · subst h0
        rw [← List.head?_eq_getElem?, hat] at hj
        simp at hj
      · exact h
    unfold extract_id entry_start_match_end
    rw [firstIdxOf_head hat, lastIdxOf_eq_some hj hlast]
    simp [hj0]
  · intro s
    induction s with
    | nil => simp [findIdRun]
    | cons c rest ih =>
      by_cases hc : idOk c
      · simp [findIdRun, hc]
      · simp [findIdRun, hc, ih]
  · intro s
    induction s with
    | nil => intro run h; simp [findIdRun] at h
    | cons c rest ih =>
      intro run h
      by_cases hc : idOk c
      · simp only [findIdRun, if_pos hc, Option.some.injEq] at h
        subst h
        refine ⟨[], rest.dropWhile idOk, ?_, ?_, ?_, ?_, ?_⟩
        · simp [List.takeWhile_append_dropWhile]
        · simp
        · simp
        · intro x hx
          rcases List.mem_cons.mp hx with hx | hx
          · exact hx ▸ hc
          · exact List.mem_takeWhile_imp hx
        · exact fun c h => dropWhile_head_not c h
      · simp only [findIdRun, if_neg hc] at h
        obtain ⟨pre, post, heq, hpre, hne, hrun, hpost⟩ := ih run h
        refine ⟨c :: pre, post, by simp [heq], ?_, hne, hrun, hpost⟩
        intro x hx
        rcases List.mem_cons.mp hx with hx | hx
        · subst hx
          simpa using hc
        · exact hpre x hx

/-- C1 amended witness at the spec's single-line entry, last `{` at
position 20. -/
theorem c1_witness :
    extract_id {} ("@article{zzz, title={X}}".toList) =
      match findIdRun (("@article{zzz, title={X}}".toList).drop (20 + 1)) with
      | none => if false then .ok [] else .error "cannot find key in line"
      | some run => .ok (case_fn false run) := by
  have hlast : ∀ k : Nat, 20 < k → ("@article{zzz, title={X}}".toList)[k]? ≠ some '{' := by
    intro k hk
    rcases Nat.lt_or_ge k 24 with h | h
    · interval_cases k <;> decide
    · have hlen : ("@article{zzz, title={X}}".toList).length = 24 := by decide
      rw [List.getElem?_eq_none (by omega)]
      simp
  exact c1_amended.1 {} ("@article{zzz, title={X}}".toList) 20 rfl (by decide) hlast

/-- C6 counterexample: the two option sets agree on the DOI toggle
(`allow_doi_duplicates = false`, i.e. DOI detection nominally enabled),
and the entries contain a duplicated DOI; yet with default options the run
fails while with `no_duplicate_detection` it succeeds — so whether the
DOI-duplicate pass executes does not depend only on its own toggle. -/
theorem c6_counterexample :
    ({ no_duplicate_detection := true } : Opts).allow_doi_duplicates =
        ({} : Opts).allow_doi_duplicates ∧
      processEntries {} dupDoiEntries =
        .error "file contains at least one duplicate key or duplicate doi, aborted writing" ∧
      processEntries { no_duplicate_detection := true } dupDoiEntries = .ok dupDoiEntries :=
  ⟨rfl, rfl, rfl⟩

/-- C6 amended: the DOI-duplicate pass executes iff duplicate detection is
not disabled and DOI duplicates are not allowed: it is enabled by default,
its own toggle disables it, but disabling duplicate-key detection also
disables it (when `no_duplicate_detection` is set, no duplicate scan of
any kind runs and the entries are simply key-sorted). -/
theorem c6_amended :
    (∀ (o : Opts) (es : List BibEntry),
      o.no_duplicate_detection = true → o.sort_by_first_author_field = false →
      o.sort_by_first_author_first_name = false →
      processEntries o es = .ok (sort_by_cached_key (fun e => e.id) es)) ∧
      processEntries {} dupDoiEntries =
        .error "file contains at least one duplicate key or duplicate doi, aborted writing" ∧
      processEntries { allow_doi_duplicates := true } dupDoiEntries = .ok dupDoiEntries := by
  refine ⟨?_, rfl, rfl⟩
  intro o es h1 h2 h3
  simp [processEntries, h1, h2, h3]

/-- C6 amended witness: with duplicate detection disabled, the duplicated
DOIs are not reported. -/
theorem c6_witness :
    processEntries { no_duplicate_detection := true } dupDoiEntries =
      .ok (sort_by_cached_key (fun e => e.id) dupDoiEntries) :=
  c6_amended.1 { no_duplicate_detection := true } dupDoiEntries rfl rfl rfl

/-!  ## Helpers for the sorting and preservation claims  -/

theorem processEntries_ok_no_author {o : Opts} {es out : List BibEntry}
    (h1 : o.sort_by_first_author_field = false) (h2 : o.sort_by_first_author_first_name = false)
    (hok : processEntries o es = .ok out) :
    out = sort_by_cached_key (fun e => e.id) es := by
  unfold processEntries at hok
  rw [h1, h2] at hok
  simp only [Bool.false_eq_true, if_false] at hok
  cases hdc : (if !o.no_duplicate_detection then
      dupCheck o (sort_by_cached_key (fun e => e.id) es) else .ok ()) with
  | error e => rw [hdc] at hok; simp at hok
  | ok u =>
    rw [hdc] at hok
    simp only [Except.ok.injEq] at hok
    exact hok.symm

theorem processEntries_ok_author_field {o : Opts} {es out : List BibEntry}
    (h1 : o.sort_by_first_author_field = true) (h2 : o.sort_by_first_author_first_name = false)
    (hok : processEntries o es = .ok out) :
    out = sort_by_first_author_field (case_fn o.case_sensitive)
      (sort_by_cached_key (fun e => e.id) es) := by
  unfold processEntries at hok
  rw [h1, h2] at hok
  simp only [Bool.false_eq_true, if_false, if_true] at hok
  cases hdc : (if !o.no_duplicate_detection then
      dupCheck o (sort_by_cached_key (fun e => e.id) es) else .ok ()) with
  | error e => rw [hdc] at hok; simp at hok
  | ok u =>
    rw [hdc] at hok
    simp only [Except.ok.injEq] at hok
    exact hok.symm

theorem collectKeys_length {cf : List Char → List Char} {es : List BibEntry}
    {ks : List (List Char)} (h : collectKeys cf es = .ok ks) : ks.length = es.length := by
  induction es generalizing ks with
  | nil =>
    simp only [collectKeys, Except.ok.injEq] at h
    subst h
    rfl
  | cons e rest ih =>
    simp only [collectKeys] at h
    cases h1 : (first_author_first_name e.content).map cf with
    | error err => rw [h1] at h; simp at h
    | ok k =>
      rw [h1] at h
      cases h2 : collectKeys cf rest with
      | error err => rw [h2] at h; simp at h
      | ok ks' =>
        rw [h2] at h
        simp only [Except.ok.injEq] at h
        subst h
        simp [ih h2]

theorem sbfafn_perm {cf : List Char → List Char} {es out : List BibEntry}
    (h : sort_by_first_author_first_name cf es = .ok out) : out.Perm es := by
  unfold sort_by_first_author_first_name at h
  cases hk : collectKeys cf es with
  | error e => rw [hk] at h; simp at h
  | ok keys =>
    rw [hk] at h
    simp only [Except.ok.injEq] at h
    subst h
    have hperm := (sort_by_cached_key_perm Prod.fst (keys.zip es)).map Prod.snd
    rwa [List.map_snd_zip keys es (by rw [collectKeys_length hk])] at hperm

theorem processEntries_ok_perm {o : Opts} {es out : List BibEntry}
    (hok : processEntries o es = .ok out) : out.Perm es := by
  unfold processEntries at hok
  simp only [] at hok
  have hps : (sort_by_cached_key (fun e => e.id) es).Perm es := sort_by_cached_key_perm _ es
  cases hdc : (if !o.no_duplicate_detection then
      dupCheck o (sort_by_cached_key (fun e => e.id) es) else .ok ()) with
  | error e => rw [hdc] at hok; simp at hok
  | ok u =>
    rw [hdc] at hok
    simp only at hok
    by_cases hf : o.sort_by_first_author_field
    · rw [hf] at hok
      simp only [if_true] at hok
      have hps2 : (sort_by_first_author_field (case_fn o.case_sensitive)
          (sort_by_cached_key (fun e => e.id) es)).Perm es :=
        (sort_by_cached_key_perm _ _).trans hps
      by_cases hn : o.sort_by_first_author_first_name
      · rw [hn] at hok
        simp only [if_true] at hok
        exact (sbfafn_perm hok).trans hps2
      · rw [eq_false_of_ne_true hn] at hok
        simp only [Bool.false_eq_true, if_false, Except.ok.injEq] at hok
        exact hok ▸ hps2
    · rw [eq_false_of_ne_true hf] at hok
      simp only [Bool.false_eq_true, if_false] at hok
      by_cases hn : o.sort_by_first_author_first_name
      · rw [hn] at hok
        simp only [if_true] at hok
        exact (sbfafn_perm hok).trans hps
      · rw [eq_false_of_ne_true hn] at hok
        simp only [Bool.false_eq_true, if_false, Except.ok.injEq] at hok
        exact hok ▸ hps

theorem write_entries_eq (l : List BibEntry) :
    write_entries l =
      (l.map fun e => e.content).foldr (fun c acc => c ++ '\n' :: '\n' :: acc) [] := by
  induction l with
  | nil => rfl
  | cons e rest ih => simp [write_entries, List.foldr] at ih ⊢; exact ih

/-- C4: when neither author-based sort is selected and the run succeeds,
the output is sorted by the stored (case-folded as selected) citation keys
— so any entry whose key is strictly smaller precedes one with a larger
key — entries with equal keys keep their pre-sort relative order, and the
key order `lexLe` is total. -/
theorem c4_key_sort :
    (∀ (o : Opts) (es out : List BibEntry),
      o.sort_by_first_author_field = false → o.sort_by_first_author_first_name = false →
      processEntries o es = .ok out →
      out.Pairwise (fun a b => lexLe a.id b.id = true) ∧
      (∀ (a b : BibEntry) (pre mid post : List BibEntry),
        es = pre ++ a :: (mid ++ b :: post) → a.id = b.id → [a, b].Sublist out)) ∧
    (∀ x y : List Char, lexLe x y = true ∨ lexLe y x = true) := by
  constructor
  · intro o es out h1 h2 hok
    have hout := processEntries_ok_no_author h1 h2 hok
    subst hout
    constructor
    · exact sort_by_cached_key_pairwise (fun e => e.id) es
    · intro a b pre mid post hsplit hk
      exact sort_by_cached_key_stable (fun e => e.id) pre mid post hsplit hk
  · exact lexLe_total

/-- C4 witness: two equal-key entries keep their order and the sorted
output is pairwise ordered. -/
theorem c4_witness :
    ([⟨['k'], ['1']⟩, ⟨['k'], ['2']⟩] : List BibEntry).Pairwise
        (fun a b => lexLe a.id b.id = true) ∧
      ([⟨['k'], ['1']⟩, ⟨['k'], ['2']⟩] : List BibEntry).Sublist
        [⟨['k'], ['1']⟩, ⟨['k'], ['2']⟩] := by
  have h := c4_key_sort.1 { no_duplicate_detection := true }
    [⟨['k'], ['1']⟩, ⟨['k'], ['2']⟩] [⟨['k'], ['1']⟩, ⟨['k'], ['2']⟩] rfl rfl rfl
  exact ⟨h.1, h.2 ⟨['k'], ['1']⟩ ⟨['k'], ['2']⟩ [] [] [] rfl rfl⟩

/-- C2: whenever segmentation and validation succeed, the multiset of raw
entry texts in the output equals the multiset of segmented raw entry
texts (sorting only permutes entries), and emission writes exactly each
entry's raw text followed by a blank line. -/
theorem c2_multiset_preserved (o : Opts) (lines : List (List Char)) (es out : List BibEntry)
    (_hparse : parse_entries o lines = .ok es) (hproc : processEntries o es = .ok out) :
    ((out.map fun e => e.content).Perm (es.map fun e => e.content)) ∧
      write_entries out =
        (out.map fun e => e.content).foldr (fun c acc => c ++ '\n' :: '\n' :: acc) [] :=
  ⟨(processEntries_ok_perm hproc).map _, write_entries_eq out⟩

/-- C2 witness on a concrete two-entry file. -/
theorem c2_witness :
    ((([⟨"aaa".toList, "@a{aaa, t=y}".toList⟩, ⟨"zzz".toList, "@a{zzz, t=x}".toList⟩] :
          List BibEntry).map fun e => e.content).Perm
        (([⟨"zzz".toList, "@a{zzz, t=x}".toList⟩, ⟨"aaa".toList, "@a{aaa, t=y}".toList⟩] :
          List BibEntry).map fun e => e.content)) ∧
      write_entries [⟨"aaa".toList, "@a{aaa, t=y}".toList⟩, ⟨"zzz".toList, "@a{zzz, t=x}".toList⟩] =
        (([⟨"aaa".toList, "@a{aaa, t=y}".toList⟩, ⟨"zzz".toList, "@a{zzz, t=x}".toList⟩] :
            List BibEntry).map fun e => e.content).foldr
          (fun c acc => c ++ '\n' :: '\n' :: acc) [] :=
  c2_multiset_preserved {} ["@a{zzz, t=x}".toList, "@a{aaa, t=y}".toList]
    [⟨"zzz".toList, "@a{zzz, t=x}".toList⟩, ⟨"aaa".toList, "@a{aaa, t=y}".toList⟩]
    [⟨"aaa".toList, "@a{aaa, t=y}".toList⟩, ⟨"zzz".toList, "@a{zzz, t=x}".toList⟩] rfl rfl

theorem processEntries_ok_first_name {o : Opts} {es out : List BibEntry}
    (h1 : o.sort_by_first_author_field = false) (h2 : o.sort_by_first_author_first_name = true)
    (hok : processEntries o es = .ok out) :
    ∃ keys,
      collectKeys (case_fn o.case_sensitive) (sort_by_cached_key (fun e => e.id) es) =
          .ok keys ∧
        out = (sort_by_cached_key Prod.fst
          (keys.zip (sort_by_cached_key (fun e => e.id) es))).map Prod.snd := by
  unfold processEntries at hok
  rw [h1, h2] at hok
  simp only [Bool.false_eq_true, if_false, if_true] at hok
  cases hdc : (if !o.no_duplicate_detection then
      dupCheck o (sort_by_cached_key (fun e => e.id) es) else .ok ()) with
  | error e => rw [hdc] at hok; simp at hok
  | ok u =>
    rw [hdc] at hok
    simp only at hok
    unfold sort_by_first_author_first_name at hok
    cases hck : collectKeys (case_fn o.case_sensitive)
        (sort_by_cached_key (fun e => e.id) es) with
    | error e => rw [hck] at hok; simp at hok
    | ok keys =>
      rw [hck] at hok
      simp only [Except.ok.injEq] at hok
      exact ⟨keys, rfl, hok.symm⟩

theorem collectKeys_zip_mem {cf : List Char → List Char} :
    ∀ {es : List BibEntry} {ks : List (List Char)}, collectKeys cf es = .ok ks →
      ∀ p ∈ ks.zip es, (first_author_first_name p.2.content).map cf = .ok p.1 := by
  intro es
  induction es with
  | nil =>
    intro ks h p hp
    simp only [collectKeys, Except.ok.injEq] at h
    subst h
    simp at hp
  | cons e rest ih =>
    intro ks h p hp
    simp only [collectKeys] at h
    cases h1 : (first_author_first_name e.content).map cf with
    | error err => rw [h1] at h; simp at h
    | ok k =>
      rw [h1] at h
      cases h2 : collectKeys cf rest with
      | error err => rw [h2] at h; simp at h
      | ok ks' =>
        rw [h2] at h
        simp only [Except.ok.injEq] at h
        subst h
        rw [List.zip_cons_cons] at hp
        rcases List.mem_cons.mp hp with hp | hp
        · subst hp
          exact h1
        · exact ih h2 p hp

/-- Ties in the key-tagged stable sort used by the first-name variant are
resolved by the order of the (already key-sorted) input list. -/
theorem zip_sort_tie (cf : List Char → List Char) {l1 : List BibEntry}
    {keys : List (List Char)} (hck : collectKeys cf l1 = .ok keys)
    (hpw : l1.Pairwise (fun a b => lexLe a.id b.id = true)) :
    ((sort_by_cached_key Prod.fst (keys.zip l1)).map Prod.snd).Pairwise
      (fun a b =>
        (first_author_first_name a.content).map cf =
          (first_author_first_name b.content).map cf →
        lexLe a.id b.id = true) := by
  have hlen : keys.length = l1.length := collectKeys_length hck
  have hmapsnd : (keys.zip l1).map Prod.snd = l1 :=
    List.map_snd_zip keys l1 (le_of_eq hlen.symm)
  have hzpw : (keys.zip l1).Pairwise (fun p q => lexLe p.2.id q.2.id = true) := by
    rw [← hmapsnd] at hpw
    exact List.pairwise_map.mp hpw
  have htie := sort_by_cached_key_tie Prod.fst
    (fun p q => lexLe p.2.id q.2.id = true) (keys.zip l1)
    (fun x _ => lexLe_refl x.2.id) hzpw
  have hperm : (sort_by_cached_key Prod.fst (keys.zip l1)).Perm (keys.zip l1) :=
    sort_by_cached_key_perm _ _
  have hmem := List.Pairwise.and_mem.mp htie
  refine List.Pairwise.map Prod.snd ?_ hmem
  rintro p q ⟨hpmem, hqmem, himp⟩ heq
  have hpk := collectKeys_zip_mem hck p (hperm.subset hpmem)
  have hqk := collectKeys_zip_mem hck q (hperm.subset hqmem)
  apply himp
  have hkk : (Except.ok p.1 : Except String (List Char)) = .ok q.1 :=
    hpk.symm.trans (heq.trans hqk)
  simpa using hkk

/-- C10: the key sort always runs before either author-based sort, and
both author-based sorts are stable, so entries whose author sort keys
compare equal appear in the output ordered by their stored citation keys:
the first conjunct settles the first-author-field sort, the second the
reordered first-name sort (the two flags are mutually exclusive on the
command line); on the concrete inputs the two same-author entries come
out in key order, the reverse of their input order, under both variants. -/
theorem c10_author_sort_ties :
    (∀ (o : Opts) (es out : List BibEntry),
      o.sort_by_first_author_field = true → o.sort_by_first_author_first_name = false →
      processEntries o es = .ok out →
      out.Pairwise (fun a b =>
        case_fn o.case_sensitive (first_author_from_content a.content) =
          case_fn o.case_sensitive (first_author_from_content b.content) →
        lexLe a.id b.id = true)) ∧
    (∀ (o : Opts) (es out : List BibEntry),
      o.sort_by_first_author_field = false → o.sort_by_first_author_first_name = true →
      processEntries o es = .ok out →
      out.Pairwise (fun a b =>
        (first_author_first_name a.content).map (case_fn o.case_sensitive) =
          (first_author_first_name b.content).map (case_fn o.case_sensitive) →
        lexLe a.id b.id = true)) ∧
      processEntries { no_duplicate_detection := true, sort_by_first_author_field := true }
          sameAuthorEntries =
        .ok [⟨"aaa".toList, "@article{aaa, author = {Same}}".toList⟩,
             ⟨"zzz".toList, "@article{zzz, author = {Same}}".toList⟩] ∧
      processEntries
          { no_duplicate_detection := true, sort_by_first_author_first_name := true }
          sameAuthorEntries =
        .ok [⟨"aaa".toList, "@article{aaa, author = {Same}}".toList⟩,
             ⟨"zzz".toList, "@article{zzz, author = {Same}}".toList⟩] := by
  refine ⟨?_, ?_, rfl, rfl⟩
  · intro o es out h1 h2 hok
    have hout := processEntries_ok_author_field h1 h2 hok
    subst hout
    unfold sort_by_first_author_field
    exact sort_by_cached_key_tie
      (fun e => case_fn o.case_sensitive (first_author_from_content e.content))
      (fun a b => lexLe a.id b.id = true)
      (sort_by_cached_key (fun e => e.id) es)
      (fun x _ => lexLe_refl x.id)
      (sort_by_cached_key_pairwise (fun e => e.id) es)
  · intro o es out h1 h2 hok
    obtain ⟨keys, hck, hout⟩ := processEntries_ok_first_name h1 h2 hok
    subst hout
    exact zip_sort_tie (case_fn o.case_sensitive) hck
      (sort_by_cached_key_pairwise (fun e => e.id) es)

/-- C10 witness: the tie-breaking property at the concrete same-author
input, under each of the two author-based sorts. -/
theorem c10_witness :
    ([⟨"aaa".toList, "@article{aaa, author = {Same}}".toList⟩,
      ⟨"zzz".toList, "@article{zzz, author = {Same}}".toList⟩] : List BibEntry).Pairwise
      (fun a b =>
        case_fn false (first_author_from_content a.content) =
          case_fn false (first_author_from_content b.content) →
        lexLe a.id b.id = true) ∧
    ([⟨"aaa".toList, "@article{aaa, author = {Same}}".toList⟩,
      ⟨"zzz".toList, "@article{zzz, author = {Same}}".toList⟩] : List BibEntry).Pairwise
      (fun a b =>
        (first_author_first_name a.content).map (case_fn false) =
          (first_author_first_name b.content).map (case_fn false) →
        lexLe a.id b.id = true) :=
  ⟨c10_author_sort_ties.1
    { no_duplicate_detection := true, sort_by_first_author_field := true }
    sameAuthorEntries
    [⟨"aaa".toList, "@article{aaa, author = {Same}}".toList⟩,
     ⟨"zzz".toList, "@article{zzz, author = {Same}}".toList⟩] rfl rfl rfl,
   c10_author_sort_ties.2.1
    { no_duplicate_detection := true, sort_by_first_author_first_name := true }
    sameAuthorEntries
    [⟨"aaa".toList, "@article{aaa, author = {Same}}".toList⟩,
     ⟨"zzz".toList, "@article{zzz, author = {Same}}".toList⟩] rfl rfl rfl⟩

/-!  ## Helpers for the duplicate-key claim  -/

theorem adjDupAt_cons_succ (a : BibEntry) (es : List BibEntry) (i : Nat) :
    adjDupAt (a :: es) (i + 1) = adjDupAt es i := by
  unfold adjDupAt
  rw [List.getElem?_cons_succ, List.getElem?_cons_succ]

theorem dupKeyMessages_cons2 (a b : BibEntry) (t : List BibEntry) :
    dupKeyMessages (a :: b :: t) =
      (if a.id ≠ [] ∧ a.id = b.id then [a.id] else []) ++ dupKeyMessages (b :: t) := by
  simp only [dupKeyMessages, List.tail_cons, List.zip_cons_cons, List.filterMap_cons]
  by_cases hp : a.id ≠ [] ∧ a.id = b.id
  · rw [if_pos hp, if_pos hp]
    simp
  · rw [if_neg hp, if_neg hp]
    simp

/-- C5: (i) the duplicate-key scan reports exactly one message per
adjacent pair with equal non-empty keys and reports something iff such a
pair exists; (ii) when duplicate detection is enabled and the key-sorted
entries contain such a pair, the run fails (no output); (iii) keys
`smith2020` and `Smith2020` are flagged under the default case-insensitive
mode and not flagged under case-sensitive mode. -/
theorem c5_duplicate_keys :
    (∀ es : List BibEntry,
      (dupKeyMessages es).length =
        ((List.range (es.length - 1)).filter fun i => adjDupAt es i).length ∧
      (dupKeyMessages es ≠ [] ↔ ∃ i, adjDupAt es i = true)) ∧
    (∀ (o : Opts) (es : List BibEntry),
      o.no_duplicate_detection = false →
      dupKeyMessages (sort_by_cached_key (fun e => e.id) es) ≠ [] →
      ∃ msg, processEntries o es = .error msg) ∧
    runPipeline {} ["@a{smith2020, t=x}".toList, "@a{Smith2020, t=y}".toList] =
      .error "file contains at least one duplicate key or duplicate doi, aborted writing" ∧
    runPipeline { case_sensitive := true }
        ["@a{smith2020, t=x}".toList, "@a{Smith2020, t=y}".toList] =
      .ok ("@a{Smith2020, t=y}\n\n@a{smith2020, t=x}\n\n".toList) := by
  refine ⟨?_, ?_, rfl, rfl⟩
  · intro es
    induction es with
    | nil =>
      refine ⟨rfl, ?_⟩
      simp [dupKeyMessages, adjDupAt]
    | cons a rest ih =>
      cases rest with
      | nil =>
        refine ⟨rfl, ?_⟩
        simp [dupKeyMessages, adjDupAt]
      | cons b t =>
        obtain ⟨ihlen, ihiff⟩ := ih
        have h0 : adjDupAt (a :: b :: t) 0 = decide (a.id ≠ [] ∧ a.id = b.id) := by
          unfold adjDupAt
          simp only [List.getElem?_cons_zero, List.getElem?_cons_succ]
        constructor
        · rw [dupKeyMessages_cons2]
          have hlen1 : (a :: b :: t).length - 1 = (b :: t).length - 1 + 1 := by simp
          rw [hlen1, List.range_succ_eq_map, List.filter_cons, List.filter_map]
          have hcomp : ((fun i => adjDupAt (a :: b :: t) i) ∘ Nat.succ) =
              fun i => adjDupAt (b :: t) i := by
            funext i
            simp [Function.comp, adjDupAt_cons_succ]
          rw [hcomp, h0]
          by_cases hp : a.id ≠ [] ∧ a.id = b.id
          · rw [if_pos hp, if_pos (decide_eq_true hp)]
            simp only [List.singleton_append, List.length_cons, List.length_map,
              List.length_cons] at ihlen ⊢
            omega
          · rw [if_neg hp, decide_eq_false hp]
            simp only [Bool.false_eq_true, if_false, List.nil_append, List.length_map,
              List.length_cons] at ihlen ⊢
            omega
        · have hsplit : dupKeyMessages (a :: b :: t) ≠ [] ↔
              (a.id ≠ [] ∧ a.id = b.id) ∨ dupKeyMessages (b :: t) ≠ [] := by
            rw [dupKeyMessages_cons2]
            by_cases hp : a.id ≠ [] ∧ a.id = b.id
            · rw [if_pos hp]
              exact iff_of_true (by simp) (Or.inl hp)
            · rw [if_neg hp]
              simp [hp]
          rw [hsplit]
          constructor
          · rintro (hp | hrest)
            · refine ⟨0, ?_⟩
              rw [h0]
              exact decide_eq_true hp
            · obtain ⟨i, hi⟩ := ihiff.mp hrest
              exact ⟨i + 1, by rwa [adjDupAt_cons_succ]⟩
          · rintro ⟨i, hi⟩
            cases i with
            | zero =>
              left
              rw [h0] at hi
              exact of_decide_eq_true hi
            | succ j =>
              right
              exact ihiff.mpr ⟨j, by rwa [adjDupAt_cons_succ] at hi⟩
  · intro o es h1 h2
    unfold processEntries
    simp only []
    rw [h1]
    simp only [Bool.not_false, if_true]
    unfold dupCheck
    have hne : (dupKeyMessages (sort_by_cached_key (fun e => e.id) es)).isEmpty = false := by
      simp [List.isEmpty_iff, h2]
    by_cases hd : o.allow_doi_duplicates
    · simp [hd, hne]
    · cases hdp : doiPass o (sort_by_cached_key (fun e => e.id) es) with
      | error e => simp [hd, hdp]
      | ok msgs => simp [hd, hdp, hne]

/-- C5 witness: two entries with the same non-empty key make the run
fail, and the scan characterisation holds on that concrete list. -/
theorem c5_witness :
    (∃ msg, processEntries {}
        [⟨['k'], ['1']⟩, ⟨['k'], ['2']⟩] = .error msg) ∧
      (dupKeyMessages [⟨['k'], ['1']⟩, ⟨['k'], ['2']⟩] ≠ [] ↔
        ∃ i, adjDupAt [⟨['k'], ['1']⟩, ⟨['k'], ['2']⟩] i = true) :=
  ⟨c5_duplicate_keys.2.1 {} [⟨['k'], ['1']⟩, ⟨['k'], ['2']⟩] rfl (by decide),
   (c5_duplicate_keys.1 [⟨['k'], ['1']⟩, ⟨['k'], ['2']⟩]).2⟩

/-!  ## Helpers for the Brace Balancer claim  -/

theorem getLast?_cons_ne {α : Type} (a : α) {l : List α} (h : l ≠ []) :
    (a :: l).getLast? = l.getLast? := by
  cases l with
  | nil => exact absurd rfl h
  | cons b t => exact List.getLast?_cons_cons

theorem balancedAt_cons_succ {c₀ : BracketCounter} {ch : Char} {rest : List Char} {m : Nat}
    (hm : 1 ≤ m) :
    balancedAt c₀ (ch :: rest) (m + 1) ↔
      balancedAt ⟨c₀.openC + (if ch = '{' then 1 else 0),
                  c₀.closeC + (if ch = '}' then 1 else 0)⟩ rest m := by
  unfold balancedAt
  rw [List.take_succ_cons]
  simp only [List.length_cons]
  by_cases hlen : m ≤ rest.length
  · have hrest : rest ≠ [] := by
      intro h
      subst h
      simp at hlen
      omega
    have htk : rest.take m ≠ [] := by
      rw [Ne, List.take_eq_nil_iff]
      push_neg
      exact ⟨by omega, hrest⟩
    rw [getLast?_cons_ne _ htk, List.count_cons, List.count_cons]
    simp only [beq_iff_eq]
    constructor
    · rintro ⟨_, _, h3, h4, h5⟩
      exact ⟨by omega, by omega, h3, by omega, by omega⟩
    · rintro ⟨_, _, h3, h4, h5⟩
      exact ⟨by omega, by omega, h3, by omega, by omega⟩
  · constructor
    · rintro ⟨_, h2, _⟩
      omega
    · rintro ⟨_, h2, _⟩
      omega

theorem neverOverClosed_cons_succ {c₀ : BracketCounter} {ch : Char} {rest : List Char}
    {n : Nat} (h : neverOverClosed c₀ (ch :: rest) (n + 1)) :
    neverOverClosed ⟨c₀.openC + (if ch = '{' then 1 else 0),
                     c₀.closeC + (if ch = '}' then 1 else 0)⟩ rest n := by
  intro m hm
  have hstep := h (m + 1) (by omega)
  rw [List.take_succ_cons, List.count_cons, List.count_cons] at hstep
  simp only [beq_iff_eq] at hstep
  simp only []
  omega

theorem count_brackets_balanced :
    ∀ (s : List Char) (c₀ : BracketCounter) (n : Nat),
      balancedAt c₀ s n → (∀ m, m < n → ¬balancedAt c₀ s m) → neverOverClosed c₀ s n →
      count_brackets c₀ s =
        .ok (s.take n,
          ⟨c₀.openC + (s.take n).count '{', c₀.closeC + (s.take n).count '}'⟩,
          if s.length ≤ n then none else some (s.drop n)) := by
  intro s
  induction s with
  | nil =>
    intro c₀ n h1 _ _
    rcases h1 with ⟨hn, hlen, _⟩
    simp only [List.length_nil, Nat.le_zero] at hlen
    omega
  | cons ch rest ih =>
    intro c₀ n h1 h2 h3
    have hn1 : 1 ≤ n := h1.1
    obtain ⟨n', rfl⟩ : ∃ n'', n = n'' + 1 := ⟨n - 1, by omega⟩
    by_cases hbr : ch = '{'
    · subst hbr
      have hn'1 : 1 ≤ n' := by
        by_contra hc
        have h0 : n' = 0 := by omega
        subst h0
        have hgl := h1.2.2.1
        simp [List.take_succ_cons] at hgl
      have hshift := (balancedAt_cons_succ hn'1).mp h1
      simp only [if_pos rfl, if_neg (by decide : ¬('{' : Char) = '}'), Nat.add_zero] at hshift
      have hmin' : ∀ m, m < n' → ¬balancedAt ⟨c₀.openC + 1, c₀.closeC⟩ rest m := by
        intro m hm hbal
        rcases Nat.eq_zero_or_pos m with h0 | hpos
        · subst h0
          exact absurd hbal.1 (by omega)
        · have hup : balancedAt c₀ ('{' :: rest) (m + 1) := by
            apply (balancedAt_cons_succ hpos).mpr
            simpa only [if_pos rfl, if_neg (by decide : ¬('{' : Char) = '}'),
              Nat.add_zero] using hbal
          exact h2 (m + 1) (by omega) hup
      have hnoc' : neverOverClosed ⟨c₀.openC + 1, c₀.closeC⟩ rest n' := by
        have hd := neverOverClosed_cons_succ h3
        simpa only [if_pos rfl, if_neg (by decide : ¬('{' : Char) = '}'),
          Nat.add_zero] using hd
      have hres := ih ⟨c₀.openC + 1, c₀.closeC⟩ n' hshift hmin' hnoc'
      conv_lhs => unfold count_brackets
      simp only [if_pos rfl]
      rw [hres]
      have hiff : (rest.length + 1 ≤ n' + 1) ↔ (rest.length ≤ n') := by omega
      simp only [List.take_succ_cons, List.count_cons, List.drop_succ_cons, List.length_cons,
        beq_iff_eq, if_pos rfl, if_neg (by decide : ¬('{' : Char) = '}'), Nat.add_zero,
        Except.ok.injEq, Prod.mk.injEq, BracketCounter.mk.injEq, hiff, if_true, and_true, true_and]
      all_goals omega
    · by_cases hcl : ch = '}'
      · subst hcl
        by_cases heq : c₀.closeC + 1 = c₀.openC
        · have hbal1 : balancedAt c₀ ('}' :: rest) 1 := by
            unfold balancedAt
            refine ⟨by omega, by simp, ?_, ?_, ?_⟩
            · simp
            · simp [List.count_cons]
              omega
            · simp [List.count_cons]
              omega
          have hn'0 : n' = 0 := by
            by_contra hc
            exact h2 1 (by omega) hbal1
          subst hn'0
          conv_lhs => unfold count_brackets
          simp only [if_neg (by decide : ¬('}' : Char) = '{'), if_pos rfl]
          rw [if_pos heq]
          have hiff : (rest.length + 1 ≤ 0 + 1) ↔ (rest.isEmpty = true) := by
            rw [List.isEmpty_iff, ← List.length_eq_zero]
            omega
          simp only [List.take_succ_cons, List.take_zero, List.count_cons, List.count_nil,
            List.drop_succ_cons, List.drop_zero, List.length_cons, beq_iff_eq,
            if_neg (by decide : ¬('}' : Char) = '{'), if_pos rfl,
            Except.ok.injEq, Prod.mk.injEq, BracketCounter.mk.injEq, hiff, if_true, and_true, true_and]
          all_goals omega
        · by_cases hlt : c₀.openC < c₀.closeC + 1
          · exfalso
            have hone := h3 1 (by omega)
            rw [List.take_succ_cons] at hone
            simp [List.count_cons] at hone
            omega
          · have hlt' : c₀.closeC + 1 < c₀.openC := by omega
            have hn'1 : 1 ≤ n' := by
              by_contra hc
              have h0 : n' = 0 := by omega
              subst h0
              have hcnt := h1.2.2.2.1
              rw [List.take_succ_cons] at hcnt
              simp [List.count_cons] at hcnt
              omega
            have hshift := (balancedAt_cons_succ hn'1).mp h1
            simp only [if_neg (by decide : ¬('}' : Char) = '{'), if_pos rfl,
              Nat.add_zero] at hshift
            have hmin' : ∀ m, m < n' → ¬balancedAt ⟨c₀.openC, c₀.closeC + 1⟩ rest m := by
              intro m hm hbal
              rcases Nat.eq_zero_or_pos m with h0 | hpos
              · subst h0
                exact absurd hbal.1 (by omega)
              · have hup : balancedAt c₀ ('}' :: rest) (m + 1) := by
                  apply (balancedAt_cons_succ hpos).mpr
                  simpa only [if_neg (by decide : ¬('}' : Char) = '{'), if_pos rfl,
                    Nat.add_zero] using hbal
                exact h2 (m + 1) (by omega) hup
            have hnoc' : neverOverClosed ⟨c₀.openC, c₀.closeC + 1⟩ rest n' := by
              have hd := neverOverClosed_cons_succ h3
              simpa only [if_neg (by decide : ¬('}' : Char) = '{'), if_pos rfl,
                Nat.add_zero] using hd
            have hres := ih ⟨c₀.openC, c₀.closeC + 1⟩ n' hshift hmin' hnoc'
            conv_lhs => unfold count_brackets
            simp only [if_neg (by decide : ¬('}' : Char) = '{'), if_pos rfl]
            rw [if_neg heq, if_neg (by omega : ¬c₀.openC < c₀.closeC + 1)]
            rw [hres]
            have hiff : (rest.length + 1 ≤ n' + 1) ↔ (rest.length ≤ n') := by omega
            simp only [List.take_succ_cons, List.count_cons, List.drop_succ_cons,
              List.length_cons, beq_iff_eq, if_neg (by decide : ¬('}' : Char) = '{'),
              if_pos rfl, Nat.add_zero, Except.ok.injEq, Prod.mk.injEq,
              BracketCounter.mk.injEq, hiff, if_true, and_true, true_and]
            all_goals omega
      · have hn'1 : 1 ≤ n' := by
          by_contra hc
          have h0 : n' = 0 := by omega
          subst h0
          have hgl := h1.2.2.1
          simp [List.take_succ_cons] at hgl
          exact hcl hgl
        have hshift := (balancedAt_cons_succ hn'1).mp h1
        simp only [if_neg hbr, if_neg hcl, Nat.add_zero] at hshift
        have hmin' : ∀ m, m < n' → ¬balancedAt c₀ rest m := by
          intro m hm hbal
          rcases Nat.eq_zero_or_pos m with h0 | hpos
          · subst h0
            exact absurd hbal.1 (by omega)
          · have hup : balancedAt c₀ (ch :: rest) (m + 1) := by
              apply (balancedAt_cons_succ hpos).mpr
              simpa only [if_neg hbr, if_neg hcl, Nat.add_zero] using hbal
            exact h2 (m + 1) (by omega) hup
        have hnoc' : neverOverClosed c₀ rest n' := by
          have hd := neverOverClosed_cons_succ h3
          simpa only [if_neg hbr, if_neg hcl, Nat.add_zero] using hd
        have hres := ih c₀ n' hshift hmin' hnoc'
        conv_lhs => unfold count_brackets
        rw [if_neg hbr, if_neg hcl]
        rw [hres]
        have hiff : (rest.length + 1 ≤ n' + 1) ↔ (rest.length ≤ n') := by omega
        simp only [List.take_succ_cons, List.count_cons, List.drop_succ_cons,
          List.length_cons, beq_iff_eq, if_neg hbr, if_neg hcl, Nat.add_zero,
          Except.ok.injEq, Prod.mk.injEq, BracketCounter.mk.injEq, hiff, if_true]

/-- C3: (i) `LineIterHelper.next` yields the buffered leftover fragment,
and only clears it, before any new line is pulled from the source; (ii)
the Brace Balancer, run from carried-in counters that have never
over-closed, stops at the least prefix whose last character is `}`, whose
counters balance and which has seen at least one `{` — returning exactly
that prefix (so the text up to and including the terminating `}`), the
updated counters, and the unscanned suffix as the leftover (absent when
empty). -/
theorem c3_balancer_and_pushback :
    (∀ (lines : List (List Char)) (l : List Char),
      LineIterHelper.next ⟨some l, lines⟩ = (some l, ⟨none, lines⟩)) ∧
    (∀ (c₀ : BracketCounter) (s : List Char) (n : Nat),
      balancedAt c₀ s n → (∀ m, m < n → ¬balancedAt c₀ s m) → neverOverClosed c₀ s n →
      count_brackets c₀ s =
        .ok (s.take n,
          ⟨c₀.openC + (s.take n).count '{', c₀.closeC + (s.take n).count '}'⟩,
          if s.length ≤ n then none else some (s.drop n))) :=
  ⟨fun _ _ => rfl, fun c₀ s n => count_brackets_balanced s c₀ n⟩

/-- C3 witness: the leftover is yielded first, and the balancer stops at
the closing brace of `@a{b}` leaving ` x` as leftover. -/
theorem c3_witness :
    LineIterHelper.next ⟨some ['y'], [['z']]⟩ = (some ['y'], ⟨none, [['z']]⟩) ∧
      count_brackets ⟨0, 0⟩ ("@a{b} x".toList) =
        .ok (("@a{b} x".toList).take 5,
          ⟨0 + (("@a{b} x".toList).take 5).count '{',
           0 + (("@a{b} x".toList).take 5).count '}'⟩,
          if ("@a{b} x".toList).length ≤ 5 then none
          else some (("@a{b} x".toList).drop 5)) :=
  ⟨c3_balancer_and_pushback.1 [['z']] ['y'],
   c3_balancer_and_pushback.2 ⟨0, 0⟩ ("@a{b} x".toList) 5 (by decide)
     (by decide) (by decide)⟩

end BibSort
